import Mathlib

/-!
Verification development for the ledger core of `blockchain.py`
(class `Blockchain`: genesis creation, `add_transaction`, `mine_block`,
`proof_of_work`, `hash_block`, `get_last_block`, `get_chain`).

The embedding is shallow:
* `hash_block` is embedded concretely: the canonical JSON serialization
  produced by `json.dumps(block_without_hash, sort_keys=True)` (default
  separators `", "` and `": "`, `ensure_ascii=True`), UTF-8 encoded and
  fed to a full SHA-256 implementation rendered as lowercase hex.
* Python `time.time()` timestamps are abstract inputs to the operations;
  they are modelled as natural numbers handed in by the caller (the
  serialization renders them in decimal, a deterministic injective
  rendering, standing for Python's deterministic injective float repr).
* Transaction amounts are modelled as integers (the core performs no
  validation of the amount; sign and zero are preserved by the model).
* The unbounded `while` loop of `proof_of_work` is modelled with fuel:
  `none` means the loop has not finished within the given fuel.
* The ledger operations take the hasher as an explicit function argument
  (mirroring the `self.hash_block` indirection); the concrete program
  instantiates it with the SHA-256 hasher `hashContent`.
-/

/-! ### Canonical JSON serialization (the `json.dumps(..., sort_keys=True)` fragment used by `hash_block`) -/

/-- Lowercase hex digit, as produced by Python's `%04x` / `hexdigest`. -/
def hexDigit (n : Nat) : Char :=
  if n < 10 then Char.ofNat (48 + n) else Char.ofNat (87 + n)

/-- Four lowercase hex digits (for `\uXXXX` escapes). -/
def hex4 (n : Nat) : List Char :=
  [hexDigit (n / 4096 % 16), hexDigit (n / 256 % 16), hexDigit (n / 16 % 16), hexDigit (n % 16)]

/-- A `\uXXXX` escape sequence (with a UTF-16 surrogate pair above U+FFFF),
exactly as CPython's `json` encoder emits with `ensure_ascii=True`. -/
def uEscape (n : Nat) : List Char :=
  if n < 65536 then '\\' :: 'u' :: hex4 n
  else
    let m := n - 65536
    ('\\' :: 'u' :: hex4 (55296 + m / 1024)) ++ ('\\' :: 'u' :: hex4 (56320 + m % 1024))

/-- Escaping of a single character inside a JSON string, following CPython's
`json.encoder` ASCII mode: short escapes for `\" \\ \b \f \n \r \t`, a
`\uXXXX` escape for every other character outside `0x20..0x7e`. -/
def escapeChar (c : Char) : List Char :=
  if c = '"' then ['\\', '"']
  else if c = '\\' then ['\\', '\\']
  else if c.toNat = 8 then ['\\', 'b']
  else if c.toNat = 9 then ['\\', 't']
  else if c.toNat = 10 then ['\\', 'n']
  else if c.toNat = 12 then ['\\', 'f']
  else if c.toNat = 13 then ['\\', 'r']
  else if c.toNat < 32 ∨ 126 < c.toNat then uEscape c.toNat
  else [c]

/-- A JSON string literal: `"` + escaped characters + `"`. -/
def jsonQuote (s : String) : String :=
  String.mk ('"' :: (s.data.flatMap escapeChar ++ ['"']))

/-- Concatenation joined by `", "`, the default item separator of `json.dumps`. -/
def joinCommaSp : List String → String
  | [] => ""
  | [s] => s
  | s :: rest => s ++ ", " ++ joinCommaSp rest

/-- Lexicographic code-point comparison of character lists: exactly Python's
`str` comparison, which is what `sort_keys=True` sorts by. -/
def charListLe : List Char → List Char → Bool
  | [], _ => true
  | _ :: _, [] => false
  | c :: cs, d :: ds =>
    if c.toNat < d.toNat then true
    else if d.toNat < c.toNat then false
    else charListLe cs ds

/-- Python `str` comparison (`<=`) on strings. -/
def strLe (a b : String) : Bool := charListLe a.data b.data

/-- Stable insertion of an entry into a key-sorted entry list. -/
def insertEntry (e : String × String) : List (String × String) → List (String × String)
  | [] => [e]
  | f :: fs => if strLe e.1 f.1 then e :: f :: fs else f :: insertEntry e fs

/-- Key-sorting of the items of a JSON object, as `sort_keys=True` performs
(`sorted` on the dict items by key). -/
def sortEntries : List (String × String) → List (String × String)
  | [] => []
  | e :: es => insertEntry e (sortEntries es)

/-- Rendering of `json.dumps` for an object from its (key, serialized-value) entries with
`sort_keys=True` and key separator `": "`. -/
def dumpsObj (l : List (String × String)) : String :=
  "\x7b" ++ joinCommaSp ((sortEntries l).map (fun e => jsonQuote e.1 ++ ": " ++ e.2)) ++ "\x7d"

/-! ### UTF-8 encoding (`str.encode()`) -/

/-- UTF-8 bytes of one Unicode scalar value. -/
def utf8Char (c : Char) : List Nat :=
  let n := c.toNat
  if n < 128 then [n]
  else if n < 2048 then [192 + n / 64, 128 + n % 64]
  else if n < 65536 then [224 + n / 4096, 128 + n / 64 % 64, 128 + n % 64]
  else [240 + n / 262144, 128 + n / 4096 % 64, 128 + n / 64 % 64, 128 + n % 64]

/-- UTF-8 encoding of a string (`.encode()` in the source). -/
def utf8Bytes (s : String) : List Nat :=
  s.data.flatMap utf8Char

/-! ### SHA-256 (`hashlib.sha256(...).hexdigest()`) -/

/-- 2^32, the word modulus of SHA-256. -/
def M32 : Nat := 4294967296

/-- Right rotation of a 32-bit word. -/
def rotr32 (k n : Nat) : Nat :=
  ((n >>> k) ||| (n <<< (32 - k))) % M32

/-- Bitwise complement on 32 bits. -/
def not32 (n : Nat) : Nat := n ^^^ 4294967295

def sigma0 (x : Nat) : Nat := rotr32 2 x ^^^ rotr32 13 x ^^^ rotr32 22 x
def sigma1 (x : Nat) : Nat := rotr32 6 x ^^^ rotr32 11 x ^^^ rotr32 25 x
def small0 (x : Nat) : Nat := rotr32 7 x ^^^ rotr32 18 x ^^^ (x >>> 3)
def small1 (x : Nat) : Nat := rotr32 17 x ^^^ rotr32 19 x ^^^ (x >>> 10)
def chFn (e f g : Nat) : Nat := (e &&& f) ^^^ (not32 e &&& g)
def majFn (a b c : Nat) : Nat := (a &&& b) ^^^ (a &&& c) ^^^ (b &&& c)

/-- The 64 SHA-256 round constants. -/
def sha256K : List Nat :=
  [1116352408, 1899447441, 3049323471, 3921009573, 961987163,
   1508970993, 2453635748, 2870763221, 3624381080, 310598401,
   607225278, 1426881987, 1925078388, 2162078206, 2614888103,
   3248222580, 3835390401, 4022224774, 264347078, 604807628,
   770255983, 1249150122, 1555081692, 1996064986, 2554220882,
   2821834349, 2952996808, 3210313671, 3336571891, 3584528711,
   113926993, 338241895, 666307205, 773529912, 1294757372,
   1396182291, 1695183700, 1986661051, 2177026350, 2456956037,
   2730485921, 2820302411, 3259730800, 3345764771, 3516065817,
   3600352804, 4094571909, 275423344, 430227734, 506948616,
   659060556, 883997877, 958139571, 1322822218, 1537002063,
   1747873779, 1955562222, 2024104815, 2227730452, 2361852424,
   2428436474, 2756734187, 3204031479, 3329325298]

/-- Big-endian byte rendering of a value on a fixed number of bytes. -/
def beBytes : Nat → Nat → List Nat
  | 0, _ => []
  | w + 1, v => beBytes w (v / 256) ++ [v % 256]

/-- SHA-256 message padding: `0x80`, zeros, and the 64-bit big-endian bit length. -/
def padMessage (m : List Nat) : List Nat :=
  m ++ [128] ++ List.replicate ((64 - ((m.length + 9) % 64)) % 64) 0 ++ beBytes 8 (m.length * 8)

/-- Split into 64-byte chunks (fuel-driven so that it reduces structurally;
the fuel `l.length` always suffices). -/
def chunksAux : Nat → List Nat → List (List Nat)
  | _, [] => []
  | 0, _ :: _ => []
  | fuel + 1, l => l.take 64 :: chunksAux fuel (l.drop 64)

def chunks (l : List Nat) : List (List Nat) := chunksAux l.length l

/-- Group a 64-byte chunk into 16 big-endian 32-bit words. -/
def bytesToWords : Nat → List Nat → List Nat
  | fuel + 1, b0 :: b1 :: b2 :: b3 :: rest =>
      (b0 * 16777216 + b1 * 65536 + b2 * 256 + b3) :: bytesToWords fuel rest
  | _, _ => []

/-- Extend the 16-word message schedule to 64 words. -/
def extendSchedule (w0 : Array Nat) : Array Nat :=
  (List.range 48).foldl
    (fun w _ =>
      let t := w.size
      w.push ((small1 (w.getD (t - 2) 0) + w.getD (t - 7) 0 +
               small0 (w.getD (t - 15) 0) + w.getD (t - 16) 0) % M32))
    w0

/-- The eight 32-bit working registers of SHA-256. -/
structure Hash8 where
  a : Nat
  b : Nat
  c : Nat
  d : Nat
  e : Nat
  f : Nat
  g : Nat
  h : Nat
deriving DecidableEq

/-- One SHA-256 compression round. -/
def compressStep (s : Hash8) (kw : Nat × Nat) : Hash8 :=
  let t1 := (s.h + sigma1 s.e + chFn s.e s.f s.g + kw.1 + kw.2) % M32
  let t2 := (sigma0 s.a + majFn s.a s.b s.c) % M32
  ⟨(t1 + t2) % M32, s.a, s.b, s.c, (s.d + t1) % M32, s.e, s.f, s.g⟩

/-- Process one 64-byte chunk. -/
def compressChunk (s : Hash8) (chunk : List Nat) : Hash8 :=
  let w := extendSchedule (Array.mk (bytesToWords 16 chunk))
  let t := (sha256K.zip w.toList).foldl compressStep s
  ⟨(s.a + t.a) % M32, (s.b + t.b) % M32, (s.c + t.c) % M32, (s.d + t.d) % M32,
   (s.e + t.e) % M32, (s.f + t.f) % M32, (s.g + t.g) % M32, (s.h + t.h) % M32⟩

/-- The SHA-256 initial hash value. -/
def sha256Init : Hash8 :=
  ⟨1779033703, 3144134277, 1013904242, 2773480762,
   1359893119, 2600822924, 528734635, 1541459225⟩

/-- SHA-256 of a byte sequence, as the eight final words. -/
def sha256Words (m : List Nat) : Hash8 :=
  (chunks (padMessage m)).foldl compressChunk sha256Init

/-- Two lowercase hex characters of one byte (always exactly two). -/
def hexByte (n : Nat) : List Char :=
  [hexDigit (n / 16 % 16), hexDigit (n % 16)]

/-- Eight lowercase hex characters of one 32-bit word. -/
def wordHex (w : Nat) : List Char :=
  hexByte (w / 16777216 % 256) ++ hexByte (w / 65536 % 256) ++ hexByte (w / 256 % 256) ++ hexByte (w % 256)

/-- The 64 hex characters of a digest state. -/
def digestChars (s : Hash8) : List Char :=
  wordHex s.a ++ wordHex s.b ++ wordHex s.c ++ wordHex s.d ++
  wordHex s.e ++ wordHex s.f ++ wordHex s.g ++ wordHex s.h

/-- The digest `hashlib.sha256(m).hexdigest()`. -/
def sha256hex (m : List Nat) : String :=
  String.mk (digestChars (sha256Words m))

/-! ### Data model (`Transaction` and block dicts of `blockchain.py`) -/

/-- A pending transaction as built by `add_transaction`:
`{'sender': ..., 'recipient': ..., 'amount': ..., 'timestamp': time.time()}`. -/
structure Transaction where
  sender : String
  recipient : String
  amount : Int
  timestamp : Nat
deriving DecidableEq

/-- A block without its `hash` field — the content that `hash_block` digests
(`hash_block` pops the `hash` key before serializing). -/
structure BlockContent where
  index : Nat
  timestamp : Nat
  transactions : List Transaction
  proof : Nat
  previous_hash : String
deriving DecidableEq

/-- A full block: content plus the stored `hash` field. -/
structure Block where
  content : BlockContent
  hash : String
deriving DecidableEq

/-- Rendering by `json.dumps` of one transaction dict under `sort_keys=True`
(key order `amount, recipient, sender, timestamp`). -/
def txJson (t : Transaction) : String :=
  "\x7b" ++ jsonQuote "amount" ++ ": " ++ toString t.amount ++ ", " ++
  jsonQuote "recipient" ++ ": " ++ jsonQuote t.recipient ++ ", " ++
  jsonQuote "sender" ++ ": " ++ jsonQuote t.sender ++ ", " ++
  jsonQuote "timestamp" ++ ": " ++ toString t.timestamp ++ "\x7d"

/-- Rendering by `json.dumps` of the transaction list. -/
def txListJson (ts : List Transaction) : String :=
  "[" ++ joinCommaSp (ts.map txJson) ++ "]"

/-- The (key, serialized value) entries of a block dict, in the insertion
order used by `create_genesis_block` and `mine_block`:
`index, timestamp, transactions, proof, previous_hash`. -/
def contentEntries (c : BlockContent) : List (String × String) :=
  [("index", toString c.index),
   ("timestamp", toString c.timestamp),
   ("transactions", txListJson c.transactions),
   ("proof", toString c.proof),
   ("previous_hash", jsonQuote c.previous_hash)]

/-- The static method `Blockchain.hash_block`: copy the dict, pop the `hash` key, serialize
with `json.dumps(..., sort_keys=True)`, UTF-8 encode, SHA-256 hexdigest. -/
def hash_block (entries : List (String × String)) : String :=
  sha256hex (utf8Bytes (dumpsObj (entries.filter (fun e => e.1 ≠ "hash"))))

/-- The hasher `hash_block` applied to a block built from a `BlockContent` (no `hash`
key present yet, exactly the call sites at lines 41 and 75 of the source). -/
def hashContent (c : BlockContent) : String :=
  hash_block (contentEntries c)

/-! ### The ledger state machine (`class Blockchain`) -/

/-- The mutable state of a `Blockchain` instance: `self.chain`,
`self.pending_transactions` and `self.difficulty`. -/
structure LedgerState where
  chain : List Block
  pending_transactions : List Transaction
  difficulty : Nat
deriving DecidableEq

/-- The type of the hasher the operations call through `self.hash_block`:
a pure function of the block content without its `hash` field. The concrete
program uses `hashContent`. -/
abbrev Hasher := BlockContent → String

namespace Blockchain

/-- The genesis block content of `create_genesis_block`, for a construction
time `ts`. -/
def genesisContent (ts : Nat) : BlockContent :=
  { index := 1, timestamp := ts, transactions := [], proof := 1, previous_hash := "0" }

/-- The constructor `Blockchain.__init__`: empty pool, a chain holding only the genesis
block (whose `hash` field is the hasher applied to the rest of the block),
and difficulty 4. -/
def init (H : Hasher) (ts : Nat) : LedgerState :=
  { chain := [⟨genesisContent ts, H (genesisContent ts)⟩],
    pending_transactions := [],
    difficulty := 4 }

/-- The method `Blockchain.get_last_block`: `self.chain[-1]`; `none` models the
`IndexError` an empty chain would raise. -/
def get_last_block (st : LedgerState) : Option Block :=
  st.chain.getLast?

/-- The method `Blockchain.get_chain`. -/
def get_chain (st : LedgerState) : List Block :=
  st.chain

/-- The method `Blockchain.add_transaction(sender, recipient, amount)` at wall-clock
time `ts`: append the new transaction to the pool and return
`len(self.chain) + 1` together with the updated state. -/
def add_transaction (sender recipient : String) (amount : Int) (ts : Nat)
    (st : LedgerState) : Nat × LedgerState :=
  let transaction : Transaction :=
    { sender := sender, recipient := recipient, amount := amount, timestamp := ts }
  (st.chain.length + 1,
   { st with pending_transactions := st.pending_transactions ++ [transaction] })

/-- The loop condition `computed_hash.startswith('0' * difficulty)`. -/
def startsWithZeros (d : Nat) (s : String) : Bool :=
  s.data.take d == List.replicate d '0'

/-- The loop of `Blockchain.proof_of_work`: try `proof = p, p+1, p+2, ...`
until the digest of the candidate satisfies the difficulty predicate.
`fuel` bounds how many attempts we may observe; `none` means the loop is
still running after `fuel` attempts. -/
def powSearch (H : Hasher) (d : Nat) (c : BlockContent) : Nat → Nat → Option BlockContent
  | 0, _ => none
  | fuel + 1, p =>
    let cand := { c with proof := p }
    if startsWithZeros d (H cand) then some cand else powSearch H d c fuel (p + 1)

/-- The method `Blockchain.proof_of_work(block)`: the search starts at `proof = 0`. -/
def proof_of_work (H : Hasher) (d : Nat) (c : BlockContent) (fuel : Nat) : Option BlockContent :=
  powSearch H d c fuel 0

/-- The candidate block of `mine_block` (lines 64-71 of the source):
`index = last.index + 1`, fresh timestamp, the captured pool
(`self.pending_transactions.copy()`), `proof = 0`, `previous_hash =
last.hash`. -/
def candidate (ts : Nat) (st : LedgerState) (last : Block) : BlockContent :=
  { index := last.content.index + 1,
    timestamp := ts,
    transactions := st.pending_transactions,
    proof := 0,
    previous_hash := last.hash }

/-- The write-back tail of `mine_block` (lines 75-77): store the digest in
the block, append it to the chain and clear the pool. `st` is the state at
the moment of the write-back. -/
def mineCommit (H : Hasher) (st : LedgerState) (c : BlockContent) : Block × LedgerState :=
  let b : Block := ⟨c, H c⟩
  (b, { st with chain := st.chain ++ [b], pending_transactions := [] })

/-- The method `Blockchain.mine_block` at wall-clock time `ts` with `fuel` bounding the
proof-of-work loop. Result:
* `some (none, st)` — the guard `if not self.pending_transactions` returned
  `None`; no mutation;
* `some (some b, st')` — block `b` was mined and appended, pool cleared;
* `none` — no result: the proof-of-work loop has not finished within
  `fuel` (the code would still be inside the `while`), or `self.chain[-1]`
  raised on an empty chain (unreachable from `__init__`). -/
def mine_block (H : Hasher) (ts fuel : Nat) (st : LedgerState) :
    Option (Option Block × LedgerState) :=
  if st.pending_transactions = [] then some (none, st)
  else
    match st.chain.getLast? with
    | none => none
    | some last =>
      match proof_of_work H st.difficulty (candidate ts st last) fuel with
      | none => none
      | some c => some (some (mineCommit H st c).1, (mineCommit H st c).2)

end Blockchain

/-- The states reachable from a freshly constructed `Blockchain` by any
sequence of `add_transaction` and `mine_block` calls, with arbitrary
arguments, wall-clock times and loop fuel. -/
inductive Reachable (H : Hasher) : LedgerState → Prop where
  | init (ts : Nat) : Reachable H (Blockchain.init H ts)
  | add (sender recipient : String) (amount : Int) (ts : Nat) {st : LedgerState} :
      Reachable H st →
      Reachable H (Blockchain.add_transaction sender recipient amount ts st).2
  | mine (ts fuel : Nat) {st st' : LedgerState} {r : Option Block} :
      Reachable H st →
      Blockchain.mine_block H ts fuel st = some (r, st') →
      Reachable H st'

/-- The order on object entries used by `sort_keys=True`. -/
def entryLe (a b : String × String) : Prop := strLe a.1 b.1 = true

/-- The linkage relation between adjacent blocks claimed by the spec. -/
def Linked (a b : Block) : Prop :=
  b.content.previous_hash = a.hash ∧ b.content.index = a.content.index + 1

/-! ### Concrete scenario fixtures

The ledger operations are generic in the hasher (they call it through the
`self.hash_block` indirection), so concrete runs of the state machine can
be exercised with inexpensive stub hashers. -/

/-- A stub hasher whose digest always meets difficulty 4. -/
def constHasher : Hasher := fun _ => "0000"

/-- A stub hasher whose digest meets difficulty 4 exactly at `proof = 2`. -/
def stepHasher : Hasher := fun c => if c.proof = 2 then "0000" else "1111"

/-- Fresh ledger at time 0 over `constHasher`. -/
def wStart : LedgerState := Blockchain.init constHasher 0

/-- State `wStart` after `add_transaction("A", "B", 10)` at time 1. -/
def wPending : LedgerState := (Blockchain.add_transaction "A" "B" 10 1 wStart).2

/-- The block mined from `wPending` at time 2. -/
def wBlock : Block := ⟨⟨2, 2, [⟨"A", "B", 10, 1⟩], 0, "0000"⟩, "0000"⟩

/-- The ledger reached from `wPending` by that mine. -/
def wMined : LedgerState :=
  { chain := [⟨Blockchain.genesisContent 0, "0000"⟩, wBlock],
    pending_transactions := [], difficulty := 4 }

/-- Fresh ledger at time 0 over `stepHasher`. -/
def sStart : LedgerState := Blockchain.init stepHasher 0

/-- State `sStart` after `add_transaction("A", "B", 10)` at time 1. -/
def sPending : LedgerState := (Blockchain.add_transaction "A" "B" 10 1 sStart).2

/-- The block mined from `sPending` at time 2: the search rejects proofs 0
and 1 and stops at 2. -/
def sBlock : Block := ⟨⟨2, 2, [⟨"A", "B", 10, 1⟩], 2, "1111"⟩, "0000"⟩

/-- The ledger reached from `sPending` by that mine. -/
def sMined : LedgerState :=
  { chain := [⟨Blockchain.genesisContent 0, "1111"⟩, sBlock],
    pending_transactions := [], difficulty := 4 }

/-- A transaction submitted by a second thread while the miner is inside the
proof-of-work search. -/
def raceTx2 : Transaction := ⟨"C", "D", 5, 3⟩

/-- Pool state after that concurrent submission lands between the capture at
line 68 and the write-back at line 77. -/
def raceDuring : LedgerState := (Blockchain.add_transaction "C" "D" 5 3 wPending).2

/-- The candidate block captured by the miner from `wPending`. -/
def raceCand : BlockContent :=
  Blockchain.candidate 2 wPending ⟨Blockchain.genesisContent 0, "0000"⟩

/-- A block content whose only varying datum is the amount of its single
transaction. -/
def amountBlock (a : Int) : BlockContent :=
  { index := 1, timestamp := 0,
    transactions := [{ sender := "A", recipient := "B", amount := a, timestamp := 0 }],
    proof := 0, previous_hash := "0" }


/-! ### Order lemmas for the canonical serialization -/

/-- Characters with equal code points are equal. -/
theorem char_toNat_inj {a b : Char} (h : a.toNat = b.toNat) : a = b :=
  Char.eq_of_val_eq (UInt32.ext h)

theorem charListLe_total : ∀ x y : List Char, charListLe x y = true ∨ charListLe y x = true
  | [], _ => Or.inl rfl
  | _ :: _, [] => Or.inr rfl
  | c :: cs, d :: ds => by
    simp only [charListLe]
    rcases Nat.lt_trichotomy c.toNat d.toNat with h | h | h
    · left; simp [h]
    · rw [h]
      simp only [Nat.lt_irrefl, if_false]
      exact charListLe_total cs ds
    · right; simp [h]

theorem charListLe_antisymm : ∀ {x y : List Char},
    charListLe x y = true → charListLe y x = true → x = y
  | [], [], _, _ => rfl
  | [], _ :: _, _, h2 => by simp [charListLe] at h2
  | _ :: _, [], h1, _ => by simp [charListLe] at h1
  | c :: cs, d :: ds, h1, h2 => by
    simp only [charListLe] at h1 h2
    rcases Nat.lt_trichotomy c.toNat d.toNat with h | h | h
    · rw [if_neg (by omega), if_pos h] at h2
      exact absurd h2 (by simp)
    · rw [h] at h1 h2
      simp only [Nat.lt_irrefl, if_false] at h1 h2
      rw [char_toNat_inj h, charListLe_antisymm h1 h2]
    · rw [if_neg (by omega), if_pos h] at h1
      exact absurd h1 (by simp)

theorem charListLe_trans : ∀ {x y z : List Char},
    charListLe x y = true → charListLe y z = true → charListLe x z = true
  | [], _, _, _, _ => rfl
  | _ :: _, [], _, h1, _ => by simp [charListLe] at h1
  | _ :: _, _ :: _, [], _, h2 => by simp [charListLe] at h2
  | c :: cs, d :: ds, e :: es, h1, h2 => by
    simp only [charListLe] at h1 h2 ⊢
    rcases Nat.lt_trichotomy c.toNat d.toNat with hcd | hcd | hcd <;>
      rcases Nat.lt_trichotomy d.toNat e.toNat with hde | hde | hde
    · rw [if_pos (show c.toNat < e.toNat by omega)]
    · rw [if_pos (show c.toNat < e.toNat by omega)]
    · rw [if_neg (show ¬ d.toNat < e.toNat by omega), if_pos hde] at h2
      exact absurd h2 (by simp)
    · rw [if_pos (show c.toNat < e.toNat by omega)]
    · rw [if_neg (show ¬ c.toNat < e.toNat by omega), if_neg (show ¬ e.toNat < c.toNat by omega)]
      rw [if_neg (show ¬ c.toNat < d.toNat by omega),
          if_neg (show ¬ d.toNat < c.toNat by omega)] at h1
      rw [if_neg (show ¬ d.toNat < e.toNat by omega),
          if_neg (show ¬ e.toNat < d.toNat by omega)] at h2
      exact charListLe_trans h1 h2
    · rw [if_neg (show ¬ d.toNat < e.toNat by omega), if_pos hde] at h2
      exact absurd h2 (by simp)
    · rw [if_neg (show ¬ c.toNat < d.toNat by omega), if_pos hcd] at h1
      exact absurd h1 (by simp)
    · rw [if_neg (show ¬ c.toNat < d.toNat by omega), if_pos hcd] at h1
      exact absurd h1 (by simp)
    · rw [if_neg (show ¬ c.toNat < d.toNat by omega), if_pos hcd] at h1
      exact absurd h1 (by simp)

theorem strLe_total (a b : String) : strLe a b = true ∨ strLe b a = true :=
  charListLe_total a.data b.data

theorem strLe_antisymm {a b : String} (h1 : strLe a b = true) (h2 : strLe b a = true) : a = b := by
  cases a with
  | mk da =>
    cases b with
    | mk db => exact congrArg String.mk (charListLe_antisymm h1 h2)

theorem strLe_trans {a b c : String} (h1 : strLe a b = true) (h2 : strLe b c = true) :
    strLe a c = true :=
  charListLe_trans h1 h2

theorem insertEntry_perm (e : String × String) : ∀ l, (insertEntry e l).Perm (e :: l)
  | [] => List.Perm.refl _
  | f :: fs => by
    simp only [insertEntry]
    split
    · exact List.Perm.refl _
    · exact ((insertEntry_perm e fs).cons f).trans (List.Perm.swap e f fs)

theorem sortEntries_perm : ∀ l, (sortEntries l).Perm l
  | [] => List.Perm.refl _
  | e :: es => (insertEntry_perm e (sortEntries es)).trans ((sortEntries_perm es).cons e)

theorem pairwise_insertEntry {e : String × String} :
    ∀ {l}, List.Pairwise entryLe l → List.Pairwise entryLe (insertEntry e l)
  | [], _ => List.pairwise_cons.mpr ⟨by simp, List.Pairwise.nil⟩
  | f :: fs, hp => by
    obtain ⟨hf, hfs⟩ := List.pairwise_cons.mp hp
    simp only [insertEntry]
    split
    · next hef =>
      refine List.pairwise_cons.mpr ⟨?_, hp⟩
      intro x hx
      rcases List.mem_cons.mp hx with rfl | hx
      · exact hef
      · exact strLe_trans hef (hf x hx)
    · next hef =>
      have hfe : strLe f.1 e.1 = true := (strLe_total e.1 f.1).resolve_left hef
      refine List.pairwise_cons.mpr ⟨?_, pairwise_insertEntry hfs⟩
      intro x hx
      rcases List.mem_cons.mp ((insertEntry_perm e fs).mem_iff.mp hx) with rfl | hx
      · exact hfe
      · exact hf x hx

theorem sortEntries_pairwise : ∀ l, List.Pairwise entryLe (sortEntries l)
  | [] => List.Pairwise.nil
  | e :: es => pairwise_insertEntry (sortEntries_pairwise es)

/-- Key-sorting does not depend on the insertion order of the entries, as
long as the keys are distinct (dict keys always are). -/
theorem sortEntries_eq_of_perm {l1 l2 : List (String × String)} (hp : l1.Perm l2)
    (hnd : (l1.map Prod.fst).Nodup) : sortEntries l1 = sortEntries l2 := by
  haveI : IsAntisymm (String × String) (fun a b => entryLe a b ∧ a.1 ≠ b.1) :=
    ⟨fun a b hab hba => absurd (strLe_antisymm hab.1 hba.1) hab.2⟩
  have key1 : ((sortEntries l1).map Prod.fst).Nodup :=
    ((sortEntries_perm l1).map Prod.fst).symm.nodup hnd
  have key2 : ((sortEntries l2).map Prod.fst).Nodup :=
    ((sortEntries_perm l2).map Prod.fst).symm.nodup ((hp.map Prod.fst).nodup hnd)
  refine List.eq_of_perm_of_sorted (r := fun a b => entryLe a b ∧ a.1 ≠ b.1)
    ((sortEntries_perm l1).trans (hp.trans (sortEntries_perm l2).symm)) ?_ ?_
  · exact (sortEntries_pairwise l1).and (List.pairwise_map.mp key1)
  · exact (sortEntries_pairwise l2).and (List.pairwise_map.mp key2)

/-- Digests of `hash_block` do not depend on the dict's key insertion order (distinct
keys), because of the canonical `sort_keys=True` serialization. -/
theorem hash_block_key_order {l1 l2 : List (String × String)} (hp : l1.Perm l2)
    (hnd : (l1.map Prod.fst).Nodup) : hash_block l1 = hash_block l2 := by
  have hsub : ((l1.filter (fun e => e.1 ≠ "hash")).map Prod.fst).Nodup :=
    ((List.filter_sublist l1).map Prod.fst).nodup hnd
  have hsort := sortEntries_eq_of_perm (hp.filter (fun e => e.1 ≠ "hash")) hsub
  unfold hash_block dumpsObj
  rw [hsort]

/-- Digests of `hash_block` ignore a `hash` entry: popping the key before serializing
makes the digest independent of whether the field is present. -/
theorem hash_block_append_hash (l : List (String × String)) (v : String) :
    hash_block (l ++ [("hash", v)]) = hash_block l := by
  unfold hash_block
  rw [List.filter_append]
  simp

/-! ### Shape of the digest -/

theorem wordHex_length (w : Nat) : (wordHex w).length = 8 := by
  simp [wordHex, hexByte]

theorem digestChars_length (s : Hash8) : (digestChars s).length = 64 := by
  simp [digestChars, wordHex_length]

/-- Every digest of `sha256hex` is a string of exactly 64 characters. -/
theorem sha256hex_length (m : List Nat) : (sha256hex m).length = 64 :=
  digestChars_length (sha256Words m)

/-- Every `hashContent` digest has exactly 64 characters. -/
theorem hashContent_length (c : BlockContent) : (hashContent c).length = 64 :=
  sha256hex_length _

/-! ### Finiteness of the digest space -/

theorem char_toNat_lt (c : Char) : c.toNat < 1114112 := by
  have hv := c.valid
  unfold Char.toNat
  rcases hv with h | ⟨h1, h2⟩
  · exact Nat.lt_trans h (by norm_num)
  · exact h2

instance : Finite Char := by
  apply Finite.of_injective (fun c => (⟨c.toNat, char_toNat_lt c⟩ : Fin 1114112))
  intro a b h
  apply char_toNat_inj
  simpa using h

/-- There are only finitely many strings of length 64. -/
theorem finite_length64 : Finite {s : String // s.length = 64} := by
  apply Finite.of_injective
    (fun p : {s : String // s.length = 64} =>
      (fun i : Fin 64 => p.1.data.get ⟨i.1, by
        have hp : p.1.data.length = 64 := p.2
        omega⟩))
  intro p q h
  apply Subtype.ext
  rcases p with ⟨⟨dp⟩, hp⟩
  rcases q with ⟨⟨dq⟩, hq⟩
  have hp' : dp.length = 64 := hp
  have hq' : dq.length = 64 := hq
  apply congrArg String.mk
  apply List.ext_get (by omega)
  intro i h1 h2
  exact congrFun h ⟨i, by omega⟩

/-! ### Behaviour of the proof-of-work search -/

/-- If the search loop of `proof_of_work` returns, the returned block is the
candidate with only its `proof` field rewritten, the digest of the result
satisfies the difficulty predicate, and every proof value between the
starting point and the winner fails the predicate (the loop tries
`p, p+1, p+2, ...` in order). -/
theorem powSearch_spec {H : Hasher} {d : Nat} {c : BlockContent} :
    ∀ {fuel p : Nat} {c' : BlockContent}, Blockchain.powSearch H d c fuel p = some c' →
      c' = { c with proof := c'.proof } ∧ p ≤ c'.proof ∧
      Blockchain.startsWithZeros d (H c') = true ∧
      ∀ q, p ≤ q → q < c'.proof →
        Blockchain.startsWithZeros d (H { c with proof := q }) = false
  | 0, p, c', h => by simp [Blockchain.powSearch] at h
  | fuel + 1, p, c', h => by
    rw [Blockchain.powSearch] at h
    by_cases hc : Blockchain.startsWithZeros d (H { c with proof := p }) = true
    · rw [if_pos hc] at h
      cases h
      refine ⟨rfl, Nat.le_refl p, hc, fun q hq1 hq2 => ?_⟩
      rw [show ({ c with proof := p } : BlockContent).proof = p from rfl] at hq2
      omega
    · have hcf : Blockchain.startsWithZeros d (H { c with proof := p }) = false := by
        revert hc; cases Blockchain.startsWithZeros d (H { c with proof := p }) <;> simp
      rw [if_neg hc] at h
      obtain ⟨h1, h2, h3, h4⟩ := powSearch_spec h
      refine ⟨h1, by omega, h3, fun q hq1 hq2 => ?_⟩
      rcases Nat.eq_or_lt_of_le hq1 with rfl | hq
      · exact hcf
      · exact h4 q (by omega) hq2

/-! ### Behaviour of `mine_block` -/

/-- An empty pool makes `mine_block` return `None` with the state untouched
(lines 60-61 of the source). -/
theorem mine_block_empty {H : Hasher} {ts fuel : Nat} {st : LedgerState}
    (h : st.pending_transactions = []) :
    Blockchain.mine_block H ts fuel st = some (none, st) := by
  rw [Blockchain.mine_block, if_pos h]

/-- A `None` result of `mine_block` can only come from the empty-pool guard,
and leaves the state unchanged. -/
theorem mine_block_none_spec {H : Hasher} {ts fuel : Nat} {st st' : LedgerState}
    (h : Blockchain.mine_block H ts fuel st = some (none, st')) :
    st' = st ∧ st.pending_transactions = [] := by
  rw [Blockchain.mine_block] at h
  split at h
  · next hpool =>
    simp only [Option.some.injEq, Prod.mk.injEq] at h
    exact ⟨h.2.symm, hpool⟩
  · split at h
    · exact absurd h (by simp)
    · split at h
      · exact absurd h (by simp)
      · simp at h

/-- A successful `mine_block` decomposes into: non-empty pool, the chain tip,
a successful proof-of-work search on the candidate block, and the
write-back of lines 75-77. -/
theorem mine_block_some_spec {H : Hasher} {ts fuel : Nat} {st st' : LedgerState} {b : Block}
    (h : Blockchain.mine_block H ts fuel st = some (some b, st')) :
    ∃ last c,
      st.pending_transactions ≠ [] ∧
      st.chain.getLast? = some last ∧
      Blockchain.proof_of_work H st.difficulty (Blockchain.candidate ts st last) fuel = some c ∧
      b = ⟨c, H c⟩ ∧
      st' = { st with chain := st.chain ++ [⟨c, H c⟩], pending_transactions := [] } := by
  rw [Blockchain.mine_block] at h
  split at h
  · exact absurd h (by simp)
  · next hpool =>
    split at h
    · exact absurd h (by simp)
    · next last hlast =>
      split at h
      · exact absurd h (by simp)
      · next c hpow =>
        simp only [Option.some.injEq, Prod.mk.injEq] at h
        refine ⟨last, c, hpool, hlast, hpow, h.1.symm, ?_⟩
        rw [← h.2]
        rfl

/-! ### The chain invariant over reachable states -/

/-- Invariant of every reachable ledger state: non-empty chain, genesis
index 1 at the head, hash/index linkage between adjacent blocks, and the
fixed difficulty 4. -/
theorem reachable_inv {H : Hasher} {st : LedgerState} (h : Reachable H st) :
    st.chain ≠ [] ∧ (∀ g ∈ st.chain.head?, g.content.index = 1) ∧
    List.Chain' Linked st.chain ∧ st.difficulty = 4 := by
  induction h with
  | init ts =>
    refine ⟨by simp [Blockchain.init], ?_, List.chain'_singleton _, rfl⟩
    intro g hg
    have hgg : (⟨Blockchain.genesisContent ts, H (Blockchain.genesisContent ts)⟩ : Block) = g := by
      simpa [Blockchain.init] using hg
    rw [← hgg]
    rfl
  | add sender recipient amount ts _ ih => exact ih
  | mine ts fuel hr heq ih =>
    rename_i st st' r
    obtain ⟨hne, hhead, hch, hdiff⟩ := ih
    cases r with
    | none =>
      obtain ⟨rfl, -⟩ := mine_block_none_spec heq
      exact ⟨hne, hhead, hch, hdiff⟩
    | some b =>
      obtain ⟨last, c, hpool, hlast, hpow, hb, hst'⟩ := mine_block_some_spec heq
      subst hst'
      rw [Blockchain.proof_of_work] at hpow
      have hc := powSearch_spec hpow
      refine ⟨by simp, ?_, ?_, hdiff⟩
      · intro g hg
        cases hx : st.chain with
        | nil => exact absurd hx hne
        | cons g0 rest =>
          rw [hx] at hg hhead
          simp only [List.cons_append, List.head?_cons, Option.mem_some_iff] at hg
          subst hg
          exact hhead g0 rfl
      · refine List.Chain'.append hch (List.chain'_singleton _) ?_
        intro x hx y hy
        rw [hlast] at hx
        simp only [Option.mem_some_iff, List.head?_cons] at hx hy
        subst hx
        subst hy
        constructor
        · show (⟨c, H c⟩ : Block).content.previous_hash = last.hash
          conv_lhs => rw [hc.1]
          rfl
        · show (⟨c, H c⟩ : Block).content.index = last.content.index + 1
          conv_lhs => rw [hc.1]
          rfl

/-- Index contiguity: head index 1 plus the linkage step force block `i` of
the chain to carry index `i + 1`. -/
theorem chain_index_of_inv {l : List Block}
    (hhead : ∀ g ∈ l.head?, g.content.index = 1)
    (hch : List.Chain' Linked l) :
    ∀ i (hi : i < l.length), (l.get ⟨i, hi⟩).content.index = i + 1 := by
  intro i
  induction i with
  | zero =>
    intro hi
    cases l with
    | nil => simp at hi
    | cons x xs => exact hhead x rfl
  | succ i ih =>
    intro hi
    have hstep := (List.chain'_iff_get.mp hch i (by omega)).2
    have hprev : (l.get ⟨i, by omega⟩).content.index = i + 1 := ih (by omega)
    exact hstep.trans (congrArg (fun n => n + 1) hprev)

/-! ### Concrete scenario steps -/

/-- Mining `wPending` at time 2 appends `wBlock` and yields `wMined`. -/
theorem wMined_step :
    Blockchain.mine_block constHasher 2 1 wPending = some (some wBlock, wMined) := by decide

theorem wPending_reachable : Reachable constHasher wPending :=
  Reachable.add "A" "B" 10 1 (Reachable.init 0)

theorem wMined_reachable : Reachable constHasher wMined :=
  Reachable.mine 2 1 wPending_reachable wMined_step

/-- Mining `sPending` at time 2 (three failed proofs, then success) yields
`sMined`. -/
theorem sMined_step :
    Blockchain.mine_block stepHasher 2 4 sPending = some (some sBlock, sMined) := by decide

theorem sPending_reachable : Reachable stepHasher sPending :=
  Reachable.add "A" "B" 10 1 (Reachable.init 0)

/-! ### The claims -/

/-- C1. For every freshly constructed ledger (`Blockchain.__init__`),
the chain contains exactly one block, and that genesis block has index 1,
an empty transaction list, proof 1, previous_hash `"0"`, and a hash field
equal to the Hasher applied to the genesis block without its own hash
field. -/
theorem claim_C1_genesis (ts : Nat) :
    ∃ g : Block,
      (Blockchain.init hashContent ts).chain = [g] ∧
      g.content.index = 1 ∧
      g.content.transactions = [] ∧
      g.content.proof = 1 ∧
      g.content.previous_hash = "0" ∧
      g.content.timestamp = ts ∧
      g.hash = hashContent g.content :=
  ⟨⟨Blockchain.genesisContent ts, hashContent (Blockchain.genesisContent ts)⟩,
    rfl, rfl, rfl, rfl, rfl, rfl, rfl⟩

/-- C2. In every ledger state reachable by any sequence of
`add_transaction` and `mine_block` calls from a fresh construction, block
`i` of the chain carries index `i + 1` (contiguous from the genesis index
1), and each non-genesis block's `previous_hash` is the stored hash of its
predecessor while its index is the predecessor's index plus one. -/
theorem claim_C2_chain_linkage {H : Hasher} {st : LedgerState} (h : Reachable H st) :
    (∀ i (hi : i < st.chain.length), (st.chain.get ⟨i, hi⟩).content.index = i + 1) ∧
    (∀ i (hi : i + 1 < st.chain.length),
      (st.chain.get ⟨i + 1, hi⟩).content.previous_hash =
        (st.chain.get ⟨i, Nat.lt_of_succ_lt hi⟩).hash ∧
      (st.chain.get ⟨i + 1, hi⟩).content.index =
        (st.chain.get ⟨i, Nat.lt_of_succ_lt hi⟩).content.index + 1) := by
  obtain ⟨-, hhead, hch, -⟩ := reachable_inv h
  refine ⟨chain_index_of_inv hhead hch, fun i hi => ?_⟩
  have hstep := List.chain'_iff_get.mp hch i (by omega)
  exact ⟨hstep.1, hstep.2⟩

theorem claim_C2_witness :
    (wMined.chain.get ⟨1, by decide⟩).content.previous_hash =
      (wMined.chain.get ⟨0, by decide⟩).hash ∧
    (wMined.chain.get ⟨1, by decide⟩).content.index = 2 := by
  have h := claim_C2_chain_linkage wMined_reachable
  exact ⟨(h.2 0 (by decide)).1, h.1 1 (by decide)⟩

/-- C3. Every block produced by a successful `mine_block` has a digest
starting with `difficulty` (= 4 in every reachable state) `'0'` characters,
and its proof is minimal: no smaller proof value for the same transactions,
previous_hash, index and timestamp satisfies the difficulty predicate. -/
theorem claim_C3_pow_minimal {H : Hasher} {ts fuel : Nat} {st st' : LedgerState} {b : Block}
    (hr : Reachable H st)
    (h : Blockchain.mine_block H ts fuel st = some (some b, st')) :
    st.difficulty = 4 ∧
    b.hash = H b.content ∧
    Blockchain.startsWithZeros 4 b.hash = true ∧
    ∀ p < b.content.proof,
      Blockchain.startsWithZeros 4 (H { b.content with proof := p }) = false := by
  obtain ⟨-, -, -, hdiff⟩ := reachable_inv hr
  obtain ⟨last, c, -, -, hpow, hb, -⟩ := mine_block_some_spec h
  rw [Blockchain.proof_of_work] at hpow
  obtain ⟨hc1, -, hz, hmin⟩ := powSearch_spec hpow
  subst hb
  refine ⟨hdiff, rfl, ?_, ?_⟩
  · rw [← hdiff]
    exact hz
  · intro p hp
    rw [← hdiff]
    have hcp : ({ c with proof := p } : BlockContent) =
        { Blockchain.candidate ts st last with proof := p } := by
      conv_lhs => rw [hc1]
    show Blockchain.startsWithZeros st.difficulty (H { c with proof := p }) = false
    rw [hcp]
    exact hmin p (Nat.zero_le p) hp

theorem claim_C3_witness :
    Blockchain.startsWithZeros 4 sBlock.hash = true ∧
    Blockchain.startsWithZeros 4 (stepHasher { sBlock.content with proof := 0 }) = false ∧
    Blockchain.startsWithZeros 4 (stepHasher { sBlock.content with proof := 1 }) = false := by
  have h := claim_C3_pow_minimal sPending_reachable sMined_step
  exact ⟨h.2.2.1, h.2.2.2 0 (by decide), h.2.2.2 1 (by decide)⟩

/-- C4. A successful `mine_block` appends a block whose index is the
previous tip's index plus one, whose `previous_hash` is the previous tip's
stored hash, and whose transactions are exactly the pool contents at
capture time in order; the stored hash is the digest of the winning
candidate, and the appended block is the returned value (the new tip). -/
theorem claim_C4_mined_block {H : Hasher} {ts fuel : Nat} {st st' : LedgerState} {b : Block}
    (h : Blockchain.mine_block H ts fuel st = some (some b, st')) :
    ∃ last, st.chain.getLast? = some last ∧
      b.content.index = last.content.index + 1 ∧
      b.content.previous_hash = last.hash ∧
      b.content.transactions = st.pending_transactions ∧
      b.content.timestamp = ts ∧
      b.hash = H b.content ∧
      st'.chain = st.chain ++ [b] ∧
      st'.chain.getLast? = some b := by
  obtain ⟨last, c, -, hlast, hpow, hb, hst'⟩ := mine_block_some_spec h
  rw [Blockchain.proof_of_work] at hpow
  obtain ⟨hc1, -, -, -⟩ := powSearch_spec hpow
  subst hb
  subst hst'
  refine ⟨last, hlast, ?_, ?_, ?_, ?_, rfl, rfl, List.getLast?_concat _⟩
  · show c.index = last.content.index + 1
    conv_lhs => rw [hc1]
    rfl
  · show c.previous_hash = last.hash
    conv_lhs => rw [hc1]
    rfl
  · show c.transactions = st.pending_transactions
    conv_lhs => rw [hc1]
    rfl
  · show c.timestamp = ts
    conv_lhs => rw [hc1]
    rfl

theorem claim_C4_witness :
    wMined.chain = wPending.chain ++ [wBlock] ∧
    wBlock.content.transactions = wPending.pending_transactions ∧
    wBlock.content.index = 2 := by
  obtain ⟨last, hlast, hidx, -, htx, -, -, hchain, -⟩ := claim_C4_mined_block wMined_step
  refine ⟨hchain, htx, ?_⟩
  have : last = (⟨Blockchain.genesisContent 0, "0000"⟩ : Block) := by
    rw [show wPending.chain.getLast? =
      some (⟨Blockchain.genesisContent 0, "0000"⟩ : Block) from rfl] at hlast
    exact (Option.some.injEq _ _).mp hlast.symm
  rw [hidx, this]
  rfl

/-- C5, a code bug. The claim demands that a transaction added to the
pool during the proof-of-work search remain pending for the next round,
and that every created transaction live in exactly one of pool / some
block. The source has no lock: `mine_block` captures the pool at line 68,
runs the long search, and then replaces the pool by `[]` at line 77. If a
concurrent `add_transaction` lands between the capture and the write-back
(the server runs threaded), its transaction is in the pool at write-back
time, yet the committed state has an empty pool and no block containing
it: the transaction is lost. This theorem replays that interleaving:
capture from `wPending`, a successful search on the captured candidate,
the concurrent submission (`raceDuring`), then the write-back of lines
75-77 against `raceDuring`. -/
theorem claim_C5_lost_update :
    Blockchain.proof_of_work constHasher wPending.difficulty raceCand 1 = some raceCand ∧
    raceTx2 ∈ raceDuring.pending_transactions ∧
    (Blockchain.mineCommit constHasher raceDuring raceCand).2.pending_transactions = [] ∧
    (∀ blk ∈ (Blockchain.mineCommit constHasher raceDuring raceCand).2.chain,
      raceTx2 ∉ blk.content.transactions) := by
  decide

/-- C6. With an empty pool, `mine_block` returns `None` and the state is
byte-for-byte unchanged; consequently a second mine right after a
successful one (which empties the pool) signals nothing-to-mine and leaves
the chain length unchanged. -/
theorem claim_C6_empty_mine (H : Hasher) (ts fuel ts2 fuel2 : Nat) (st : LedgerState) :
    (st.pending_transactions = [] → Blockchain.mine_block H ts fuel st = some (none, st)) ∧
    (∀ b st', Blockchain.mine_block H ts fuel st = some (some b, st') →
      Blockchain.mine_block H ts2 fuel2 st' = some (none, st')) := by
  constructor
  · exact mine_block_empty
  · intro b st' h
    obtain ⟨last, c, -, -, -, -, hst'⟩ := mine_block_some_spec h
    subst hst'
    exact mine_block_empty rfl

theorem claim_C6_witness :
    Blockchain.mine_block constHasher 5 3 wStart = some (none, wStart) ∧
    Blockchain.mine_block constHasher 5 3 wMined = some (none, wMined) :=
  ⟨(claim_C6_empty_mine constHasher 5 3 5 3 wStart).1 rfl,
   (claim_C6_empty_mine constHasher 2 1 5 3 wPending).2 wBlock wMined wMined_step⟩

/-- C7. `add_transaction` appends exactly one transaction carrying the
given sender, recipient and amount plus the current timestamp, and returns
`len(chain) + 1`; the amount is an arbitrary integer (zero and negative
values included) — the core performs no validation. -/
theorem claim_C7_add_transaction (sender recipient : String) (amount : Int) (ts : Nat)
    (st : LedgerState) :
    (Blockchain.add_transaction sender recipient amount ts st).1 = st.chain.length + 1 ∧
    (Blockchain.add_transaction sender recipient amount ts st).2.pending_transactions =
      st.pending_transactions ++
        [{ sender := sender, recipient := recipient, amount := amount, timestamp := ts }] :=
  ⟨rfl, rfl⟩

set_option maxRecDepth 1000000 in
/-- C8, amended. The Hasher is a pure function of the block content
without its `hash` field: every digest is a 64-character string, the
result is independent of the dict's key insertion order (keys being
distinct) and of the presence of a `hash` entry, and on the exhibited
concrete pair differing in a single transaction's amount the digests
differ. (The claim's universal "differs if any field changes" is refuted
by `claim_C8_counterexample`.) -/
theorem claim_C8_hasher_amended :
    (∀ c : BlockContent, (hashContent c).length = 64) ∧
    (∀ l1 l2 : List (String × String), l1.Perm l2 → (l1.map Prod.fst).Nodup →
      hash_block l1 = hash_block l2) ∧
    (∀ (l : List (String × String)) (v : String),
      hash_block (l ++ [("hash", v)]) = hash_block l) ∧
    hashContent (amountBlock 0) ≠ hashContent (amountBlock 1) := by
  refine ⟨hashContent_length, fun l1 l2 hp hnd => hash_block_key_order hp hnd,
    hash_block_append_hash, ?_⟩
  decide

theorem claim_C8_witness :
    hash_block [("b", "1"), ("a", "2")] = hash_block [("a", "2"), ("b", "1")] ∧
    hash_block [("a", "2"), ("hash", "x")] = hash_block [("a", "2")] :=
  ⟨claim_C8_hasher_amended.2.1 _ _ (List.Perm.swap ("a", "2") ("b", "1") []) (by decide),
   claim_C8_hasher_amended.2.2.1 [("a", "2")] "x"⟩

/-- C8 counterexample. The claim "the output differs if any field
changes" cannot hold universally: digests are strings of 64 characters, a
finite set, while blocks differing only in the amount of one transaction
are infinitely many, so two distinct amounts must collide. -/
theorem claim_C8_counterexample :
    ∃ a1 a2 : Int, a1 ≠ a2 ∧ hashContent (amountBlock a1) = hashContent (amountBlock a2) := by
  haveI := finite_length64
  obtain ⟨m, n, hmn, heq⟩ := Finite.exists_ne_map_eq_of_infinite
    (fun k : ℕ => (⟨hashContent (amountBlock (k : Int)), hashContent_length _⟩ :
      {s : String // s.length = 64}))
  refine ⟨(m : Int), (n : Int), by exact_mod_cast hmn, ?_⟩
  exact congrArg Subtype.val heq

/-- C9. `get_last_block` returns the chain's final element, and on every
reachable state the chain is non-empty, so the empty-chain failure branch
is unreachable. -/
theorem claim_C9_last_block {H : Hasher} {st : LedgerState} (h : Reachable H st) :
    ∃ hne : st.chain ≠ [], Blockchain.get_last_block st = some (st.chain.getLast hne) := by
  obtain ⟨hne, -, -, -⟩ := reachable_inv h
  exact ⟨hne, List.getLast?_eq_getLast _ hne⟩

theorem claim_C9_witness : Blockchain.get_last_block wMined = some wBlock := by
  obtain ⟨hne, hlast⟩ := claim_C9_last_block wMined_reachable
  rw [hlast]
  rfl

/-- C10. `add_transaction` is total for all values of its (typed) field
arguments and touches nothing but the pool: the chain and the difficulty
are unchanged, the previously pending transactions sit unchanged as a
prefix, and the pool grows by exactly one entry. -/
theorem claim_C10_add_frame (sender recipient : String) (amount : Int) (ts : Nat)
    (st : LedgerState) :
    (Blockchain.add_transaction sender recipient amount ts st).2.chain = st.chain ∧
    (Blockchain.add_transaction sender recipient amount ts st).2.difficulty = st.difficulty ∧
    (Blockchain.add_transaction sender recipient amount ts st).2.pending_transactions.length =
      st.pending_transactions.length + 1 ∧
    (Blockchain.add_transaction sender recipient amount ts st).2.pending_transactions.take
      st.pending_transactions.length = st.pending_transactions := by
  refine ⟨rfl, rfl, by simp [Blockchain.add_transaction], ?_⟩
  show (st.pending_transactions ++ [_]).take st.pending_transactions.length =
    st.pending_transactions
  exact List.take_left _ _
